import Mathlib

/-!
Verification of the DxOS console core: a shallow embedding of the
scancode ring queue (src/keyboard.rs), the line-editing shell engine
(src/shell.rs) and the VGA text writer (src/vga_buffer.rs), together
with theorems settling the specified properties.

Machine integers are modelled as Nat with explicit `% 2^w` where the
source truncates; fallible operations return Except/Option; the
in-place loops of the source become folds over index ranges; printing
becomes an explicit trace of output events.
-/

set_option maxRecDepth 10000

/-! ## Generic list helpers -/

theorem getD_set_self {α : Type} (l : List α) (i : Nat) (d : α) (h : i < l.length) :
    l.set i (l.getD i d) = l := by
  induction l generalizing i with
  | nil => rfl
  | cons a t ih =>
    cases i with
    | zero => rfl
    | succ i =>
      simp only [List.getD_cons_succ, List.set]
      rw [ih i (by simpa using h)]

theorem getD_set_eq {α : Type} (l : List α) (i : Nat) (v d : α) (h : i < l.length) :
    (l.set i v).getD i d = v := by
  induction l generalizing i with
  | nil => simp at h
  | cons a t ih =>
    cases i with
    | zero => rfl
    | succ i => exact ih i (by simpa using h)

theorem getD_set_ne {α : Type} (l : List α) (i j : Nat) (v : α) (d : α) (h : i ≠ j) :
    (l.set i v).getD j d = l.getD j d := by
  induction l generalizing i j with
  | nil => rfl
  | cons a t ih =>
    cases i with
    | zero =>
      cases j with
      | zero => exact absurd rfl h
      | succ j => rfl
    | succ i =>
      cases j with
      | zero => rfl
      | succ j => exact ih i j (by omega)

theorem take_set_succ {α : Type} (l : List α) (k : Nat) (v : α) (h : k < l.length) :
    (l.set k v).take (k+1) = l.take k ++ [v] := by
  induction l generalizing k with
  | nil => simp at h
  | cons a t ih =>
    cases k with
    | zero => simp
    | succ k =>
      simp only [List.set, List.take_succ_cons, List.cons_append]
      rw [ih k (by simpa using h)]

theorem set_append_len {α : Type} (l m : List α) (v : α) :
    (l ++ m).set l.length v = l ++ m.set 0 v := by
  induction l with
  | nil => rfl
  | cons a t ih => simp [List.set, ih]

theorem getD_append_len_add {α : Type} (l m : List α) (k : Nat) (d : α) :
    (l ++ m).getD (l.length + k) d = m.getD k d := by
  induction l with
  | nil => simp
  | cons a t ih => simpa [Nat.succ_add] using ih

/-! ## Scancode queue (src/keyboard.rs)

`const SCANCODE_QUEUE_SIZE: usize = 16;` and the `ScancodeQueue` type with
its `push` and `pop` methods.  `push` mutates `self` and returns
`Result<(), ()>`; here it returns the result together with the new state.
-/

def SCANCODE_QUEUE_SIZE : Nat := 16

structure ScancodeQueue where
  buffer : List Nat
  read_pos : Nat
  write_pos : Nat
deriving DecidableEq

def ScancodeQueue.new : ScancodeQueue :=
  { buffer := List.replicate SCANCODE_QUEUE_SIZE 0
  , read_pos := 0
  , write_pos := 0 }

def ScancodeQueue.push (q : ScancodeQueue) (scancode : Nat) :
    Except Unit Unit × ScancodeQueue :=
  let next_write := (q.write_pos + 1) % SCANCODE_QUEUE_SIZE
  if next_write = q.read_pos then
    (Except.error (), q)
  else
    (Except.ok (),
      { q with buffer := q.buffer.set q.write_pos scancode, write_pos := next_write })

def ScancodeQueue.pop (q : ScancodeQueue) : Option Nat × ScancodeQueue :=
  if q.read_pos = q.write_pos then
    (none, q)
  else
    (some (q.buffer.getD q.read_pos 0),
      { q with read_pos := (q.read_pos + 1) % SCANCODE_QUEUE_SIZE })

/-- An abstract operation on the queue: a push of one byte, or a pop. -/
inductive QOp
  | push (b : Nat)
  | pop
deriving DecidableEq

/-- Run a sequence of operations on the concrete queue, collecting every
byte reported by `pop` in order. -/
def runOps (q : ScancodeQueue) : List QOp → ScancodeQueue × List Nat
  | [] => (q, [])
  | QOp.push b :: ops =>
    let r := q.push b
    let rest := runOps r.2 ops
    (rest.1, rest.2)
  | QOp.pop :: ops =>
    let r := q.pop
    let rest := runOps r.2 ops
    (rest.1, (match r.1 with | some b => [b] | none => []) ++ rest.2)

/-! Specification-side model, following the spec's words: a FIFO list of
pending bytes that never holds more than capacity minus one (15) bytes;
a push onto a full queue drops the new byte. -/

def specPush (m : List Nat) (b : Nat) : List Nat :=
  if m.length < SCANCODE_QUEUE_SIZE - 1 then m ++ [b] else m

def specPop (m : List Nat) : Option Nat × List Nat :=
  match m with
  | [] => (none, [])
  | x :: xs => (some x, xs)

def specRun (m : List Nat) : List QOp → List Nat × List Nat
  | [] => (m, [])
  | QOp.push b :: ops => specRun (specPush m b) ops
  | QOp.pop :: ops =>
    let r := specPop m
    let rest := specRun r.2 ops
    (rest.1, (match r.1 with | some b => [b] | none => []) ++ rest.2)

/-- Number of stored-but-unpopped bytes of the concrete queue. -/
def pending (q : ScancodeQueue) : Nat :=
  (q.write_pos + SCANCODE_QUEUE_SIZE - q.read_pos) % SCANCODE_QUEUE_SIZE

/-- Abstraction function: the pending bytes, oldest first. -/
def absQ (q : ScancodeQueue) : List Nat :=
  (List.range (pending q)).map
    (fun i => q.buffer.getD ((q.read_pos + i) % SCANCODE_QUEUE_SIZE) 0)

/-- Structural invariant of reachable queue states. -/
def QInv (q : ScancodeQueue) : Prop :=
  q.read_pos < SCANCODE_QUEUE_SIZE ∧ q.write_pos < SCANCODE_QUEUE_SIZE ∧
    q.buffer.length = SCANCODE_QUEUE_SIZE

theorem absQ_length (q : ScancodeQueue) : (absQ q).length = pending q := by
  simp [absQ]

theorem pending_lt (q : ScancodeQueue) : pending q < SCANCODE_QUEUE_SIZE := by
  simp only [pending, SCANCODE_QUEUE_SIZE]
  omega

theorem push_full_eq (q : ScancodeQueue) (b : Nat)
    (hfull : (q.write_pos + 1) % SCANCODE_QUEUE_SIZE = q.read_pos) :
    q.push b = (Except.error (), q) := by
  simp [ScancodeQueue.push, hfull]

theorem full_iff_pending (q : ScancodeQueue) (hinv : QInv q) :
    (q.write_pos + 1) % SCANCODE_QUEUE_SIZE = q.read_pos ↔
      pending q = SCANCODE_QUEUE_SIZE - 1 := by
  obtain ⟨hr, hw, -⟩ := hinv
  simp only [pending, SCANCODE_QUEUE_SIZE] at *
  omega

theorem empty_iff_pending (q : ScancodeQueue) (hinv : QInv q) :
    q.read_pos = q.write_pos ↔ pending q = 0 := by
  obtain ⟨hr, hw, -⟩ := hinv
  simp only [pending, SCANCODE_QUEUE_SIZE] at *
  omega

theorem push_ok_sim (q : ScancodeQueue) (b : Nat) (hinv : QInv q)
    (hfull : (q.write_pos + 1) % SCANCODE_QUEUE_SIZE ≠ q.read_pos) :
    QInv (q.push b).2 ∧ absQ (q.push b).2 = absQ q ++ [b] := by
  obtain ⟨hr, hw, hb⟩ := hinv
  have hbuf : (q.push b).2.buffer = q.buffer.set q.write_pos b := by
    simp [ScancodeQueue.push, hfull]
  have hrp : (q.push b).2.read_pos = q.read_pos := by
    simp [ScancodeQueue.push, hfull]
  have hwp : (q.push b).2.write_pos = (q.write_pos + 1) % SCANCODE_QUEUE_SIZE := by
    simp [ScancodeQueue.push, hfull]
  constructor
  · refine ⟨by rw [hrp]; exact hr, ?_, by rw [hbuf]; simpa using hb⟩
    rw [hwp]
    simp only [SCANCODE_QUEUE_SIZE]
    omega
  · have hpend : pending (q.push b).2 = pending q + 1 := by
      simp only [pending, hrp, hwp, SCANCODE_QUEUE_SIZE] at *
      omega
    simp only [absQ, hpend, hrp, hbuf]
    rw [List.range_succ, List.map_append]
    congr 1
    · apply List.map_congr_left
      intro i hi
      have hilt : i < pending q := List.mem_range.mp hi
      apply getD_set_ne
      simp only [pending, SCANCODE_QUEUE_SIZE] at *
      omega
    · simp only [List.map_cons, List.map_nil, List.cons.injEq, and_true]
      have hidx : (q.read_pos + pending q) % SCANCODE_QUEUE_SIZE = q.write_pos := by
        simp only [pending, SCANCODE_QUEUE_SIZE] at *
        omega
      rw [hidx]
      exact getD_set_eq _ _ _ _ (by omega)

theorem pop_empty_sim (q : ScancodeQueue)
    (hemp : q.read_pos = q.write_pos) :
    q.pop = (none, q) := by
  simp [ScancodeQueue.pop, hemp]

theorem pop_ne_sim (q : ScancodeQueue) (hinv : QInv q)
    (hne : q.read_pos ≠ q.write_pos) :
    QInv (q.pop).2 ∧ (q.pop).1 = (absQ q).headI ∧ absQ (q.pop).2 = (absQ q).tail ∧
      absQ q ≠ [] := by
  obtain ⟨hr, hw, hb⟩ := hinv
  have hfst : (q.pop).1 = some (q.buffer.getD q.read_pos 0) := by
    simp [ScancodeQueue.pop, hne]
  have hbuf : (q.pop).2.buffer = q.buffer := by
    simp [ScancodeQueue.pop, hne]
  have hrp : (q.pop).2.read_pos = (q.read_pos + 1) % SCANCODE_QUEUE_SIZE := by
    simp [ScancodeQueue.pop, hne]
  have hwp : (q.pop).2.write_pos = q.write_pos := by
    simp [ScancodeQueue.pop, hne]
  have hp0 : 0 < pending q := by
    simp only [pending, SCANCODE_QUEUE_SIZE] at *
    omega
  obtain ⟨p, hp⟩ : ∃ p, pending q = p + 1 := ⟨pending q - 1, by omega⟩
  have habs : absQ q = q.buffer.getD q.read_pos 0 ::
      (List.range p).map
        (fun i => q.buffer.getD ((q.read_pos + (i + 1)) % SCANCODE_QUEUE_SIZE) 0) := by
    simp only [absQ, hp]
    rw [List.range_succ_eq_map]
    simp only [List.map_cons, List.map_map]
    have h1 : (q.read_pos + 0) % SCANCODE_QUEUE_SIZE = q.read_pos := by
      simpa using Nat.mod_eq_of_lt hr
    rw [h1]
    congr 1
  have hpend : pending (q.pop).2 = p := by
    simp only [pending, hrp, hwp, SCANCODE_QUEUE_SIZE] at *
    omega
  refine ⟨?_, ?_, ?_, ?_⟩
  · refine ⟨?_, by rw [hwp]; exact hw, by rw [hbuf]; exact hb⟩
    rw [hrp]
    simp only [SCANCODE_QUEUE_SIZE]
    omega
  · rw [hfst, habs]
    simp
  · rw [habs]
    simp only [List.tail_cons]
    simp only [absQ, hpend, hrp, hbuf]
    apply List.map_congr_left
    intro i hi
    congr 1
    simp only [SCANCODE_QUEUE_SIZE] at *
    omega
  · rw [habs]
    simp

theorem runOps_sim (ops : List QOp) (q : ScancodeQueue) (hinv : QInv q) :
    QInv (runOps q ops).1 ∧
      absQ (runOps q ops).1 = (specRun (absQ q) ops).1 ∧
      (runOps q ops).2 = (specRun (absQ q) ops).2 := by
  induction ops generalizing q with
  | nil => exact ⟨hinv, rfl, rfl⟩
  | cons op ops ih =>
    cases op with
    | push b =>
      by_cases hfull : (q.write_pos + 1) % SCANCODE_QUEUE_SIZE = q.read_pos
      · have hq : q.push b = (Except.error (), q) := push_full_eq q b hfull
        have hlen : ¬ ((absQ q).length < SCANCODE_QUEUE_SIZE - 1) := by
          rw [absQ_length, (full_iff_pending q hinv).mp hfull]
          omega
        have hspec : specPush (absQ q) b = absQ q := by
          simp [specPush, hlen]
        obtain ⟨h1, h2, h3⟩ := ih q hinv
        refine ⟨?_, ?_, ?_⟩ <;>
          simp [runOps, specRun, hq, hspec, h1, h2, h3]
      · obtain ⟨hinv2, habs2⟩ := push_ok_sim q b hinv hfull
        have hlen : (absQ q).length < SCANCODE_QUEUE_SIZE - 1 := by
          rw [absQ_length]
          have := pending_lt q
          have hne := (not_iff_not.mpr (full_iff_pending q hinv)).mp hfull
          simp only [SCANCODE_QUEUE_SIZE] at *
          omega
        have hspec : specPush (absQ q) b = absQ q ++ [b] := by
          simp [specPush, hlen]
        obtain ⟨h1, h2, h3⟩ := ih (q.push b).2 hinv2
        refine ⟨?_, ?_, ?_⟩ <;>
          simp [runOps, specRun, hspec, ← habs2, h1, h2, h3]
    | pop =>
      by_cases hemp : q.read_pos = q.write_pos
      · have hq : q.pop = (none, q) := pop_empty_sim q hemp
        have habs : absQ q = [] := by
          have : (absQ q).length = 0 := by
            rw [absQ_length, (empty_iff_pending q hinv).mp hemp]
          exact List.length_eq_zero.mp this
        obtain ⟨h1, h2, h3⟩ := ih q hinv
        refine ⟨?_, ?_, ?_⟩ <;>
          simp [runOps, specRun, hq, habs, specPop, h1, h2, h3]
      · obtain ⟨hinv2, hhead, htail, hne⟩ := pop_ne_sim q hinv hemp
        obtain ⟨x, xs, hxs⟩ : ∃ x xs, absQ q = x :: xs := by
          cases h : absQ q with
          | nil => exact absurd h hne
          | cons x xs => exact ⟨x, xs, rfl⟩
        obtain ⟨h1, h2, h3⟩ := ih (q.pop).2 hinv2
        rw [hxs] at hhead htail
        simp only [List.headI, List.tail_cons] at hhead htail
        refine ⟨?_, ?_, ?_⟩ <;>
          simp [runOps, specRun, hxs, specPop, hhead, htail, h1, h2, h3]

theorem specRun_len (ops : List QOp) (m : List Nat)
    (hm : m.length ≤ SCANCODE_QUEUE_SIZE - 1) :
    (specRun m ops).1.length ≤ SCANCODE_QUEUE_SIZE - 1 := by
  induction ops generalizing m with
  | nil => exact hm
  | cons op ops ih =>
    cases op with
    | push b =>
      apply ih
      simp only [specPush]
      split <;> simp_all <;> omega
    | pop =>
      cases m with
      | nil => exact ih [] hm
      | cons x xs =>
        apply ih
        simp only [specPop, SCANCODE_QUEUE_SIZE, List.length_cons] at hm ⊢
        omega

theorem QInv_new : QInv ScancodeQueue.new := by
  refine ⟨?_, ?_, ?_⟩ <;> simp [ScancodeQueue.new, SCANCODE_QUEUE_SIZE]

theorem absQ_new : absQ ScancodeQueue.new = [] := by
  simp [absQ, pending, ScancodeQueue.new]

/-- C1.  For every sequence of push and pop operations on the Scancode
Queue, the bytes reported by pop are exactly those of the ideal bounded
FIFO model run on the same operations (so every popped byte was pushed,
in FIFO order, with no reordering and no duplication), and the number of
stored-but-unpopped bytes never exceeds the declared capacity minus one
(15 of the 16 slots). -/
theorem scancode_queue_refines_fifo (ops : List QOp) :
    (runOps ScancodeQueue.new ops).2 = (specRun [] ops).2 ∧
      absQ (runOps ScancodeQueue.new ops).1 = (specRun [] ops).1 ∧
      (absQ (runOps ScancodeQueue.new ops).1).length ≤ SCANCODE_QUEUE_SIZE - 1 := by
  obtain ⟨h1, h2, h3⟩ := runOps_sim ops ScancodeQueue.new QInv_new
  rw [absQ_new] at h2 h3
  exact ⟨h3, h2, by rw [h2]; exact specRun_len ops [] (by simp)⟩

/-- C2.  Pushing onto a full queue (the slot after the write cursor is the
read cursor) returns an error and leaves the buffer, the read cursor and
the write cursor exactly as they were. -/
theorem scancode_push_full_noop (q : ScancodeQueue) (b : Nat)
    (hfull : (q.write_pos + 1) % SCANCODE_QUEUE_SIZE = q.read_pos) :
    (q.push b).1 = Except.error () ∧ (q.push b).2 = q := by
  simp [ScancodeQueue.push, hfull]

/-- Witness for C2 at a concrete full queue. -/
theorem scancode_push_full_noop_witness :
    (15 + 1) % SCANCODE_QUEUE_SIZE = 0 ∧
      ((ScancodeQueue.mk (List.replicate 16 7) 0 15).push 9).1 = Except.error () ∧
      ((ScancodeQueue.mk (List.replicate 16 7) 0 15).push 9).2 =
        ScancodeQueue.mk (List.replicate 16 7) 0 15 := by
  refine ⟨by decide, ?_⟩
  exact scancode_push_full_noop (ScancodeQueue.mk (List.replicate 16 7) 0 15) 9 (by decide)

/-- C10.  In every state reachable from the initial queue by any sequence
of pushes and pops, both cursors are strictly below the queue size (16)
and the buffer keeps its declared length, so every buffer access inside
push and pop is in bounds. -/
theorem scancode_cursors_in_bounds (ops : List QOp) :
    (runOps ScancodeQueue.new ops).1.read_pos < SCANCODE_QUEUE_SIZE ∧
      (runOps ScancodeQueue.new ops).1.write_pos < SCANCODE_QUEUE_SIZE ∧
      (runOps ScancodeQueue.new ops).1.buffer.length = SCANCODE_QUEUE_SIZE :=
  (runOps_sim ops ScancodeQueue.new QInv_new).1

/-! ## Shell engine (src/shell.rs): state and line editing

Rust strings (&str) are modelled as their UTF-8 byte lists; printing is
modelled as an explicit trace of output events.  The mutable statics of
shell.rs become the fields of `ShellState`.
-/

abbrev Str := List Nat

/-- UTF-8 encoding of one char (what `print!("{}", c)` emits). -/
def utf8EncodeChar (c : Char) : Str :=
  let n := c.toNat
  if n < 0x80 then [n]
  else if n < 0x800 then [0xC0 + n / 0x40, 0x80 + n % 0x40]
  else if n < 0x10000 then
    [0xE0 + n / 0x1000, 0x80 + (n / 0x40) % 0x40, 0x80 + n % 0x40]
  else
    [0xF0 + n / 0x40000, 0x80 + (n / 0x1000) % 0x40, 0x80 + (n / 0x40) % 0x40,
      0x80 + n % 0x40]

def utf8Encode (cs : List Char) : Str :=
  cs.foldr (fun c acc => utf8EncodeChar c ++ acc) []

/-- Byte list of a Lean string literal (UTF-8). -/
def strBytes (s : String) : Str := utf8Encode s.data

def isCont (b : Nat) : Bool := 0x80 ≤ b && b ≤ 0xBF

/-- State machine for the validity check performed by `str::from_utf8`:
state 0 expects a start byte; states 1/2/3 expect that many plain
continuation bytes; states 4–7 expect the constrained second byte after
E0, ED, F0, F4 respectively (excluding overlong forms and surrogates). -/
def utf8Aux : Nat → Str → Bool
  | 0, [] => true
  | _+1, [] => false
  | 0, b :: rest =>
    if b ≤ 0x7F then utf8Aux 0 rest
    else if 0xC2 ≤ b && b ≤ 0xDF then utf8Aux 1 rest
    else if b = 0xE0 then utf8Aux 4 rest
    else if (0xE1 ≤ b && b ≤ 0xEC) || b = 0xEE || b = 0xEF then utf8Aux 2 rest
    else if b = 0xED then utf8Aux 5 rest
    else if b = 0xF0 then utf8Aux 6 rest
    else if 0xF1 ≤ b && b ≤ 0xF3 then utf8Aux 3 rest
    else if b = 0xF4 then utf8Aux 7 rest
    else false
  | 1, b :: rest => isCont b && utf8Aux 0 rest
  | 2, b :: rest => isCont b && utf8Aux 1 rest
  | 3, b :: rest => isCont b && utf8Aux 2 rest
  | 4, b :: rest => (0xA0 ≤ b && b ≤ 0xBF) && utf8Aux 1 rest
  | 5, b :: rest => (0x80 ≤ b && b ≤ 0x9F) && utf8Aux 1 rest
  | 6, b :: rest => (0x90 ≤ b && b ≤ 0xBF) && utf8Aux 2 rest
  | 7, b :: rest => (0x80 ≤ b && b ≤ 0x8F) && utf8Aux 2 rest
  | _+8, _ :: _ => false

/-- Validity check performed by `str::from_utf8` (the accepted str is the
same byte slice, so only the boolean matters). -/
def isValidUtf8 (l : Str) : Bool := utf8Aux 0 l

/-- One observable output action of the shell or keyboard layer. -/
inductive OutEvent
  | text (s : Str)
  | backspace
  | clearScreen
  | reset
deriving DecidableEq

def outText : List OutEvent → Str
  | [] => []
  | OutEvent.text s :: evs => s ++ outText evs
  | _ :: evs => outText evs

def LINE_BUF_LEN : Nat := 128
def HISTORY_SIZE : Nat := 10

/-- The mutable statics of shell.rs. -/
structure ShellState where
  LINE_BUF : Str
  LINE_LEN : Nat
  HISTORY : List Str
  HISTORY_LENS : List Nat
  HISTORY_INDEX : Nat
  HISTORY_COUNT : Nat
  HISTORY_BROWSE_INDEX : Option Nat
deriving DecidableEq

def shellInit : ShellState :=
  { LINE_BUF := List.replicate LINE_BUF_LEN 0
  , LINE_LEN := 0
  , HISTORY := List.replicate HISTORY_SIZE (List.replicate LINE_BUF_LEN 0)
  , HISTORY_LENS := List.replicate HISTORY_SIZE 0
  , HISTORY_INDEX := 0
  , HISTORY_COUNT := 0
  , HISTORY_BROWSE_INDEX := none }

def promptEvents : List OutEvent := [OutEvent.text (strBytes "> ")]

/-- `c as u8` in Rust truncates the scalar value to its low 8 bits. -/
def charToByte (c : Char) : Nat := c.toNat % 256

def push_char (s : ShellState) (c : Char) : ShellState × List OutEvent :=
  if s.LINE_LEN < LINE_BUF_LEN - 1 then
    ({ s with LINE_BUF := s.LINE_BUF.set s.LINE_LEN (charToByte c)
            , LINE_LEN := s.LINE_LEN + 1 },
      [OutEvent.text (utf8EncodeChar c)])
  else
    ({ s with LINE_LEN := 0 },
      [OutEvent.text (strBytes "\n[buffer full]" ++ [10])] ++ promptEvents)

def backspace (s : ShellState) : ShellState × List OutEvent :=
  if s.LINE_LEN > 0 then
    ({ s with LINE_LEN := s.LINE_LEN - 1 }, [OutEvent.backspace])
  else
    (s, [])

def get_line (s : ShellState) : Str × ShellState :=
  let slice := s.LINE_BUF.take s.LINE_LEN
  if isValidUtf8 slice then
    (slice, { s with LINE_LEN := 0, HISTORY_BROWSE_INDEX := none })
  else
    ([], { s with LINE_LEN := 0, HISTORY_BROWSE_INDEX := none })

def add_to_history (s : ShellState) (line : Str) : ShellState :=
  if line.isEmpty then s
  else
    let len := min line.length LINE_BUF_LEN
    let entry := line.take len ++ (s.HISTORY.getD s.HISTORY_INDEX []).drop len
    { s with HISTORY := s.HISTORY.set s.HISTORY_INDEX entry
           , HISTORY_LENS := s.HISTORY_LENS.set s.HISTORY_INDEX len
           , HISTORY_INDEX := (s.HISTORY_INDEX + 1) % HISTORY_SIZE
           , HISTORY_COUNT := if s.HISTORY_COUNT < HISTORY_SIZE then
               s.HISTORY_COUNT + 1 else s.HISTORY_COUNT }

def clear_current_line (s : ShellState) : ShellState × List OutEvent :=
  ({ s with LINE_LEN := 0 }, List.replicate s.LINE_LEN OutEvent.backspace)

def load_history_line (s : ShellState) (idx : Nat) : ShellState × List OutEvent :=
  let cleared := clear_current_line s
  let len := cleared.1.HISTORY_LENS.getD idx 0
  let entry := cleared.1.HISTORY.getD idx []
  let newBuf := entry.take len ++ cleared.1.LINE_BUF.drop len
  let shown := newBuf.take len
  (( { cleared.1 with LINE_BUF := newBuf, LINE_LEN := len }),
    cleared.2 ++ (if isValidUtf8 shown then [OutEvent.text shown] else []))

def history_prev (s : ShellState) : ShellState × List OutEvent :=
  if s.HISTORY_COUNT = 0 then (s, [])
  else
    let step : Option Nat :=
      match s.HISTORY_BROWSE_INDEX with
      | none =>
        some (if s.HISTORY_COUNT < HISTORY_SIZE then s.HISTORY_COUNT - 1
              else (s.HISTORY_INDEX + HISTORY_SIZE - 1) % HISTORY_SIZE)
      | some idx =>
        if s.HISTORY_COUNT < HISTORY_SIZE then
          if idx > 0 then some (idx - 1) else none
        else
          some ((idx + HISTORY_SIZE - 1) % HISTORY_SIZE)
    match step with
    | none => (s, [])
    | some browse_idx =>
      load_history_line { s with HISTORY_BROWSE_INDEX := some browse_idx } browse_idx

def history_next (s : ShellState) : ShellState × List OutEvent :=
  match s.HISTORY_BROWSE_INDEX with
  | none => (s, [])
  | some idx =>
    if s.HISTORY_COUNT < HISTORY_SIZE then
      if idx + 1 < s.HISTORY_COUNT then
        load_history_line { s with HISTORY_BROWSE_INDEX := some (idx + 1) } (idx + 1)
      else
        clear_current_line { s with HISTORY_BROWSE_INDEX := none }
    else
      let new_idx := (idx + 1) % HISTORY_SIZE
      if new_idx ≠ s.HISTORY_INDEX then
        load_history_line { s with HISTORY_BROWSE_INDEX := some new_idx } new_idx
      else
        clear_current_line { s with HISTORY_BROWSE_INDEX := none }

/-! ## Shell engine: command table and dispatch -/

/-- Decimal rendering of a Nat, as the Display format does. -/
def natToBytes (n : Nat) : Str :=
  if n < 10 then [48 + n]
  else natToBytes (n / 10) ++ [48 + n % 10]
decreasing_by omega

/-- Left-justified padding to a field width (format `{:<12}`). -/
def padTo (s : Str) (w : Nat) : Str := s ++ List.replicate (w - s.length) 32

/-- The action of a command, named: the registry stores function pointers,
here identified by which command they implement. -/
inductive CommandTag
  | tagHelp
  | tagEcho
  | tagClear
  | tagReboot
  | tagHistory
deriving DecidableEq

structure Command where
  name : Str
  help : Str
  func : CommandTag
deriving DecidableEq

def COMMANDS : List Command :=
  [ { name := strBytes "help", help := strBytes "Display this help message"
    , func := CommandTag.tagHelp }
  , { name := strBytes "echo", help := strBytes "Echo arguments to the screen"
    , func := CommandTag.tagEcho }
  , { name := strBytes "clear", help := strBytes "Clear the screen"
    , func := CommandTag.tagClear }
  , { name := strBytes "reboot", help := strBytes "Reboot the system"
    , func := CommandTag.tagReboot }
  , { name := strBytes "history", help := strBytes "Show command history"
    , func := CommandTag.tagHistory } ]

def find_command (name : Str) : Option Command :=
  COMMANDS.find? (fun cmd => cmd.name = name)

def isWsByte (b : Nat) : Bool := b = 32 || b = 9

/-- Faithful translation of the fixed-8-slot whitespace splitter: the
returned list always has exactly 8 entries, unused ones empty. -/
def splitTokens : Str → Nat → List Str
  | _, 0 => []
  | bytes, Nat.succ fuel =>
    let rest := bytes.dropWhile isWsByte
    match rest with
    | [] => []
    | r =>
      r.takeWhile (fun b => ! isWsByte b) ::
        splitTokens (r.dropWhile (fun b => ! isWsByte b)) fuel

def split_whitespace (s : Str) : List Str :=
  let toks := splitTokens s 8
  toks ++ List.replicate (8 - toks.length) []

def cmd_help : List OutEvent :=
  OutEvent.text (strBytes "Available commands:" ++ [10]) ::
    COMMANDS.map (fun cmd =>
      OutEvent.text (strBytes "  " ++ padTo cmd.name 12 ++ strBytes " - " ++
        cmd.help ++ [10]))

def cmd_echo (args : List Str) : List OutEvent :=
  (args.enum.map (fun p =>
    (if p.1 > 0 then [OutEvent.text (strBytes " ")] else []) ++
      [OutEvent.text p.2])).flatten ++ [OutEvent.text [10]]

def cmd_clear : List OutEvent := [OutEvent.clearScreen]

/-- `reset_cpu` never returns; the trace ends with the reset event. -/
def cmd_reboot : List OutEvent :=
  [OutEvent.text (strBytes "Rebooting system..." ++ [10]), OutEvent.reset]

def cmd_history (s : ShellState) : List OutEvent :=
  if s.HISTORY_COUNT = 0 then [OutEvent.text (strBytes "No command history" ++ [10])]
  else
    let start := if s.HISTORY_COUNT < HISTORY_SIZE then 0 else s.HISTORY_INDEX
    OutEvent.text (strBytes "Command history:" ++ [10]) ::
      ((List.range s.HISTORY_COUNT).map (fun i =>
        let idx := (start + i) % HISTORY_SIZE
        let len := s.HISTORY_LENS.getD idx 0
        let bytes := (s.HISTORY.getD idx []).take len
        if isValidUtf8 bytes then
          [OutEvent.text (strBytes "  " ++ natToBytes (i + 1) ++ strBytes " " ++
            bytes ++ [10])]
        else [])).flatten

/-- Run the function stored in a registry entry.  No command mutates the
shell statics, so the state is returned unchanged, as in the source. -/
def runCommand (s : ShellState) (tag : CommandTag) (args : List Str) :
    List OutEvent :=
  match tag with
  | CommandTag.tagHelp => cmd_help
  | CommandTag.tagEcho => cmd_echo args
  | CommandTag.tagClear => cmd_clear
  | CommandTag.tagReboot => cmd_reboot
  | CommandTag.tagHistory => cmd_history s

def execute_command (s : ShellState) (line : Str) : ShellState × List OutEvent :=
  let parts := split_whitespace line
  if (parts.getD 0 []).isEmpty then (s, [])
  else
    let cmd_name := parts.getD 0 []
    let args := parts.drop 1
    match find_command cmd_name with
    | some cmd => (s, runCommand s cmd.func args)
    | none =>
      (s, [OutEvent.text (strBytes "Unknown command: " ++ cmd_name ++
        strBytes ". Type 'help' for available commands." ++ [10])])

/-- A decoded key event handed to the shell: a unicode character, one of
the two handled raw keys, or any other (ignored) raw key. -/
inductive Key
  | unicode (c : Char)
  | arrowUp
  | arrowDown
  | otherRaw
deriving DecidableEq

/-- One step of the shell: the new state, the output events, and, when the
key was Enter and the line nonempty, the command line handed to
`execute_command`. -/
def process_key (s : ShellState) (k : Key) :
    ShellState × List OutEvent × Option Str :=
  match k with
  | Key.unicode c =>
    if c = '\n' then
      let gl := get_line s
      if gl.1.isEmpty then
        (gl.2, [OutEvent.text [10]] ++ promptEvents, none)
      else
        let s2 := add_to_history gl.2 gl.1
        let ex := execute_command s2 gl.1
        (ex.1, [OutEvent.text [10]] ++ ex.2 ++ promptEvents, some gl.1)
    else if c = Char.ofNat 8 ∨ c = Char.ofNat 0x7f then
      let r := backspace s
      (r.1, r.2, none)
    else
      let r := push_char s c
      (r.1, r.2, none)
  | Key.arrowUp =>
    let r := history_prev s
    (r.1, r.2, none)
  | Key.arrowDown =>
    let r := history_next s
    (r.1, r.2, none)
  | Key.otherRaw => (s, [], none)

/-- Feed a list of characters one at a time. -/
def feedChars (s : ShellState) : List Char → ShellState
  | [] => s
  | c :: cs => feedChars (process_key s (Key.unicode c)).1 cs

/-! ## Shell theorems: line buffer, dispatch, echo -/

theorem isValidUtf8_ascii (l : Str) (h : ∀ b ∈ l, b ≤ 0x7F) :
    isValidUtf8 l = true := by
  unfold isValidUtf8
  induction l with
  | nil => rfl
  | cons b rest ih =>
    have hb : b ≤ 0x7F := h b (List.mem_cons_self b rest)
    rw [utf8Aux, if_pos hb]
    exact ih (fun x hx => h x (List.mem_cons_of_mem b hx))

/-- C9.  push_char treats the line buffer as full once the length reaches
LINE_BUF_LEN - 1 = 127: after any push_char the length is at most 127, the
128th slot is never written, and a push attempted at length 127 or more
resets the length to zero. -/
theorem line_buf_capacity_inv (s : ShellState) (c : Char) :
    (push_char s c).1.LINE_LEN ≤ LINE_BUF_LEN - 1 ∧
      (push_char s c).1.LINE_BUF.getD (LINE_BUF_LEN - 1) 0 =
        s.LINE_BUF.getD (LINE_BUF_LEN - 1) 0 ∧
      (LINE_BUF_LEN - 1 ≤ s.LINE_LEN → (push_char s c).1.LINE_LEN = 0) := by
  by_cases h : s.LINE_LEN < LINE_BUF_LEN - 1
  · have hs : (push_char s c).1 =
        { s with LINE_BUF := s.LINE_BUF.set s.LINE_LEN (charToByte c)
               , LINE_LEN := s.LINE_LEN + 1 } := by
      rw [push_char, if_pos h]
    rw [hs]
    refine ⟨by simp only [LINE_BUF_LEN] at *; omega, ?_, ?_⟩
    · exact getD_set_ne _ _ _ _ _ (by omega)
    · intro hc
      simp only [LINE_BUF_LEN] at *
      omega
  · have hs : (push_char s c).1 = { s with LINE_LEN := 0 } := by
      rw [push_char, if_neg h]
    rw [hs]
    refine ⟨by simp only [LINE_BUF_LEN]; omega, rfl, fun _ => rfl⟩

/-- Witness for C9 at a line already holding 127 bytes. -/
theorem line_buf_capacity_inv_witness :
    LINE_BUF_LEN - 1 ≤ ({ shellInit with LINE_LEN := 127 } : ShellState).LINE_LEN ∧
      (push_char { shellInit with LINE_LEN := 127 } 'a').1.LINE_LEN = 0 ∧
      (push_char { shellInit with LINE_LEN := 127 } 'a').1.LINE_LEN ≤
        LINE_BUF_LEN - 1 :=
  ⟨by decide,
    (line_buf_capacity_inv { shellInit with LINE_LEN := 127 } 'a').2.2 (by decide),
    (line_buf_capacity_inv { shellInit with LINE_LEN := 127 } 'a').1⟩

/-- C8.  Dispatching a line whose first whitespace token matches no entry
of the command table (exact, case-sensitive comparison) prints exactly
`Unknown command: <name>. Type 'help' for available commands.` and leaves
the shell state unchanged. -/
theorem unknown_command_message (s : ShellState) (line : Str)
    (hne : ((split_whitespace line).getD 0 []).isEmpty = false)
    (hfind : find_command ((split_whitespace line).getD 0 []) = none) :
    execute_command s line =
      (s, [OutEvent.text (strBytes "Unknown command: " ++
        (split_whitespace line).getD 0 [] ++
        strBytes ". Type 'help' for available commands." ++ [10])]) := by
  unfold execute_command
  simp only [hne, Bool.false_eq_true, if_false, hfind]

/-- Witness for C8: submitting `foo`. -/
theorem unknown_command_message_witness :
    ((split_whitespace (strBytes "foo")).getD 0 []).isEmpty = false ∧
      find_command ((split_whitespace (strBytes "foo")).getD 0 []) = none ∧
      execute_command shellInit (strBytes "foo") =
        (shellInit, [OutEvent.text (strBytes
          "Unknown command: foo. Type 'help' for available commands." ++ [10])]) :=
  ⟨by decide, by decide,
    (unknown_command_message shellInit (strBytes "foo") (by decide)
      (by decide)).trans (by decide)⟩

/-- C7.  Evaluating the code on the spec scenario: typing `echo hi there`
then Enter emits `hi there` followed by FIVE trailing spaces (one per
unused slot of the fixed 8-token array) before the newline and prompt, so
the output is not exactly `hi there` followed by a newline. -/
theorem echo_trailing_spaces_eval :
    outText (process_key (feedChars shellInit ("echo hi there".data))
        (Key.unicode '\n')).2.1 = strBytes "\nhi there     \n> " ∧
      outText (process_key (feedChars shellInit ("echo hi there".data))
        (Key.unicode '\n')).2.1 ≠ strBytes "\nhi there\n> " := by
  constructor
  · decide
  · decide

/-! ## C3: typed characters are dispatched exactly -/

theorem feedChars_push (cs : List Char) (s : ShellState)
    (hlen : s.LINE_LEN + cs.length ≤ LINE_BUF_LEN - 1)
    (hbuf : s.LINE_BUF.length = LINE_BUF_LEN)
    (hch : ∀ c ∈ cs, c ≠ '\n' ∧ c ≠ Char.ofNat 8 ∧ c ≠ Char.ofNat 0x7f) :
    (feedChars s cs).LINE_LEN = s.LINE_LEN + cs.length ∧
      (feedChars s cs).LINE_BUF.length = LINE_BUF_LEN ∧
      (feedChars s cs).LINE_BUF.take (s.LINE_LEN + cs.length) =
        s.LINE_BUF.take s.LINE_LEN ++ cs.map charToByte := by
  induction cs generalizing s with
  | nil => exact ⟨by simp [feedChars], by simpa [feedChars] using hbuf, by simp [feedChars]⟩
  | cons c cs ih =>
    obtain ⟨hc1, hc2, hc3⟩ := hch c (List.mem_cons_self c cs)
    have hlt : s.LINE_LEN < LINE_BUF_LEN - 1 := by
      simp only [List.length_cons] at hlen
      omega
    have hstep : (process_key s (Key.unicode c)).1 =
        { s with LINE_BUF := s.LINE_BUF.set s.LINE_LEN (charToByte c)
               , LINE_LEN := s.LINE_LEN + 1 } := by
      simp only [process_key]
      rw [if_neg hc1, if_neg (fun h => h.elim hc2 hc3), push_char, if_pos hlt]
    rw [feedChars, hstep]
    have hlen2 : (s.LINE_LEN + 1) + cs.length ≤ LINE_BUF_LEN - 1 := by
      simp only [List.length_cons] at hlen
      omega
    obtain ⟨ihA, ihB, ihC⟩ := ih
      { s with LINE_BUF := s.LINE_BUF.set s.LINE_LEN (charToByte c)
             , LINE_LEN := s.LINE_LEN + 1 }
      hlen2 (by simpa using hbuf)
      (fun x hx => hch x (List.mem_cons_of_mem c hx))
    have harith : s.LINE_LEN + (c :: cs).length = (s.LINE_LEN + 1) + cs.length := by
      simp only [List.length_cons]
      omega
    refine ⟨by rw [harith]; exact ihA, ihB, ?_⟩
    rw [harith, ihC]
    have htake : (s.LINE_BUF.set s.LINE_LEN (charToByte c)).take (s.LINE_LEN + 1) =
        s.LINE_BUF.take s.LINE_LEN ++ [charToByte c] :=
      take_set_succ _ _ _ (by omega)
    simp only [htake, List.map_cons, List.append_assoc, List.singleton_append]

/-- C3 (amended).  For every nonempty sequence of at most 127 characters,
each an ASCII character other than newline, backspace (U+0008) and delete
(U+007F), typing the sequence from an empty line and pressing Enter hands
exactly that sequence (as its byte string) to execute_command. -/
theorem line_dispatch_exact_ascii (cs : List Char) (hne : cs ≠ [])
    (hlen : cs.length ≤ LINE_BUF_LEN - 1)
    (hch : ∀ c ∈ cs, c.toNat < 128 ∧ c.toNat ≠ 8 ∧ c.toNat ≠ 10 ∧ c.toNat ≠ 127) :
    (process_key (feedChars shellInit cs) (Key.unicode '\n')).2.2 =
      some (cs.map Char.toNat) := by
  have hch2 : ∀ c ∈ cs, c ≠ '\n' ∧ c ≠ Char.ofNat 8 ∧ c ≠ Char.ofNat 0x7f := by
    intro c hc
    obtain ⟨h1, h2, h3, h4⟩ := hch c hc
    exact ⟨fun he => h3 (by rw [he]; decide),
      fun he => h2 (by rw [he]; decide),
      fun he => h4 (by rw [he]; decide)⟩
  obtain ⟨hA, hB, hC⟩ := feedChars_push cs shellInit
    (by simpa [shellInit] using hlen) (by simp [shellInit, LINE_BUF_LEN]) hch2
  have hmap : cs.map charToByte = cs.map Char.toNat := by
    apply List.map_congr_left
    intro c hc
    exact Nat.mod_eq_of_lt (by have := (hch c hc).1; omega)
  have hslice : (feedChars shellInit cs).LINE_BUF.take
      (feedChars shellInit cs).LINE_LEN = cs.map Char.toNat := by
    rw [hA]
    have h0 : shellInit.LINE_LEN = 0 := rfl
    rw [h0] at hC ⊢
    simpa [hmap] using hC
  have hvalid : isValidUtf8 (cs.map Char.toNat) = true := by
    apply isValidUtf8_ascii
    intro b hb
    obtain ⟨c, hc, hcb⟩ := List.mem_map.mp hb
    have := (hch c hc).1
    omega
  have hnonempty : (cs.map Char.toNat).isEmpty = false := by
    cases cs with
    | nil => exact absurd rfl hne
    | cons x xs => rfl
  simp only [process_key, if_pos rfl, get_line, hslice, hvalid, if_true, hnonempty,
    Bool.false_eq_true, if_false]

/-- C3 (counterexample).  The claim fails as stated, on three inputs:
a non-ASCII character (U+0100) is truncated to the byte 0 so the
dispatched line differs from the typed sequence; typing nothing and
pressing Enter dispatches nothing (not the empty sequence); and a typed
backspace character edits the line instead of being dispatched. -/
theorem line_dispatch_counterexample :
    ([Char.ofNat 256].length < LINE_BUF_LEN ∧
      (process_key (feedChars shellInit [Char.ofNat 256]) (Key.unicode '\n')).2.2 =
        some [0] ∧
      some [0] ≠ some (utf8Encode [Char.ofNat 256])) ∧
    (process_key (feedChars shellInit []) (Key.unicode '\n')).2.2 = none ∧
    ((process_key (feedChars shellInit ['a', Char.ofNat 8]) (Key.unicode '\n')).2.2 ≠
      some (utf8Encode ['a', Char.ofNat 8])) := by
  refine ⟨⟨by decide, by decide, by decide⟩, by decide, by decide⟩

/-- Witness for the amended C3 on the concrete sequence `hi`. -/
theorem line_dispatch_exact_ascii_witness :
    ("hi".data ≠ [] ∧ "hi".data.length ≤ LINE_BUF_LEN - 1) ∧
      (process_key (feedChars shellInit "hi".data) (Key.unicode '\n')).2.2 =
        some ("hi".data.map Char.toNat) :=
  ⟨⟨by decide, by decide⟩,
    line_dispatch_exact_ascii "hi".data (by decide) (by decide) (by decide)⟩

/-! ## C5: arrow-up on empty history, arrow-up then arrow-down -/

theorem load_keeps_browse (s : ShellState) (idx : Nat) :
    (load_history_line s idx).1.HISTORY_BROWSE_INDEX = s.HISTORY_BROWSE_INDEX := by
  simp [load_history_line, clear_current_line]

theorem load_keeps_count (s : ShellState) (idx : Nat) :
    (load_history_line s idx).1.HISTORY_COUNT = s.HISTORY_COUNT := by
  simp [load_history_line, clear_current_line]

theorem load_keeps_index (s : ShellState) (idx : Nat) :
    (load_history_line s idx).1.HISTORY_INDEX = s.HISTORY_INDEX := by
  simp [load_history_line, clear_current_line]

/-- The browse index selected by the first arrow-up press. -/
def prevStart (s : ShellState) : Nat :=
  if s.HISTORY_COUNT < HISTORY_SIZE then s.HISTORY_COUNT - 1
  else (s.HISTORY_INDEX + HISTORY_SIZE - 1) % HISTORY_SIZE

theorem prev_from_none (s : ShellState) (hc0 : ¬ s.HISTORY_COUNT = 0)
    (hbr : s.HISTORY_BROWSE_INDEX = none) :
    history_prev s =
      load_history_line { s with HISTORY_BROWSE_INDEX := some (prevStart s) }
        (prevStart s) := by
  simp only [history_prev, hbr, hc0, if_false, prevStart]

/-- C5.  Arrow-up on an empty history changes nothing and prints nothing;
from any state with nonempty history (and the maintained invariant that
the write index is below the ring size) and no active browse, arrow-up
then arrow-down leaves the line buffer empty and the browse index None. -/
theorem history_nav_up_down :
    (∀ s : ShellState, s.HISTORY_COUNT = 0 → history_prev s = (s, [])) ∧
    (∀ s : ShellState, 0 < s.HISTORY_COUNT → s.HISTORY_INDEX < HISTORY_SIZE →
      s.HISTORY_BROWSE_INDEX = none →
      (history_next (history_prev s).1).1.LINE_LEN = 0 ∧
        (history_next (history_prev s).1).1.HISTORY_BROWSE_INDEX = none) := by
  constructor
  · intro s h0
    simp [history_prev, h0]
  · intro s hc hHI hbr
    have hc0 : ¬ s.HISTORY_COUNT = 0 := by omega
    rw [prev_from_none s hc0 hbr]
    have hb1 := load_keeps_browse
      { s with HISTORY_BROWSE_INDEX := some (prevStart s) } (prevStart s)
    have hc1 := load_keeps_count
      { s with HISTORY_BROWSE_INDEX := some (prevStart s) } (prevStart s)
    have hi1 := load_keeps_index
      { s with HISTORY_BROWSE_INDEX := some (prevStart s) } (prevStart s)
    simp only at hb1 hc1 hi1
    by_cases hlt : s.HISTORY_COUNT < HISTORY_SIZE
    · have hps : prevStart s = s.HISTORY_COUNT - 1 := by
        simp [prevStart, hlt]
      rw [hps] at hb1 hc1 hi1 ⊢
      simp only [history_next, hb1, hc1, hlt, if_true]
      rw [if_neg (by omega)]
      simp [clear_current_line]
    · have hwrap : (prevStart s + 1) % HISTORY_SIZE = s.HISTORY_INDEX := by
        have hps : prevStart s = (s.HISTORY_INDEX + HISTORY_SIZE - 1) % HISTORY_SIZE := by
          simp [prevStart, hlt]
        rw [hps]
        simp only [HISTORY_SIZE] at hHI ⊢
        omega
      simp only [history_next, hb1, hc1, hi1, if_neg hlt, hwrap, ne_eq,
        not_true_eq_false, if_false, ite_false]
      simp [clear_current_line]

/-- Witness for C5: the empty initial history, and a concrete one-entry
history state. -/
theorem history_nav_up_down_witness :
    (shellInit.HISTORY_COUNT = 0 ∧ history_prev shellInit = (shellInit, [])) ∧
      (0 < ({ shellInit with HISTORY_COUNT := 1, HISTORY_INDEX := 1 } :
          ShellState).HISTORY_COUNT ∧
        (history_next (history_prev
          { shellInit with HISTORY_COUNT := 1, HISTORY_INDEX := 1 }).1).1.LINE_LEN = 0 ∧
        (history_next (history_prev
          { shellInit with HISTORY_COUNT := 1, HISTORY_INDEX := 1 }).1).1.HISTORY_BROWSE_INDEX =
          none) :=
  ⟨⟨rfl, history_nav_up_down.1 shellInit rfl⟩,
    by decide,
    (history_nav_up_down.2 { shellInit with HISTORY_COUNT := 1, HISTORY_INDEX := 1 }
      (by decide) (by decide) rfl).1,
    (history_nav_up_down.2 { shellInit with HISTORY_COUNT := 1, HISTORY_INDEX := 1 }
      (by decide) (by decide) rfl).2⟩

/-! ## C4: history ring semantics -/

theorem getD_replicate_lt {α : Type} (n i : Nat) (a d : α) (h : i < n) :
    (List.replicate n a).getD i d = a := by
  induction n generalizing i with
  | zero => omega
  | succ n ih =>
    cases i with
    | zero => rfl
    | succ i => exact ih i (by omega)

/-- Submit the same line N times (the Enter path calls add_to_history on
each nonempty submitted line). -/
def submitRep (l : Str) : Nat → ShellState
  | 0 => shellInit
  | n+1 => add_to_history (submitRep l n) l

/-- Press arrow-up k times. -/
def upIter (s : ShellState) : Nat → ShellState
  | 0 => s
  | k+1 => (history_prev (upIter s k)).1

/-- The current line as typed so far. -/
def lineOf (s : ShellState) : Str := s.LINE_BUF.take s.LINE_LEN

/-- The stored history entry at a ring slot. -/
def histLine (s : ShellState) (i : Nat) : Str :=
  (s.HISTORY.getD i []).take (s.HISTORY_LENS.getD i 0)

/-- Structural invariant of the shell statics. -/
def HistWF (s : ShellState) : Prop :=
  s.HISTORY.length = HISTORY_SIZE ∧ s.HISTORY_LENS.length = HISTORY_SIZE ∧
    (∀ i, i < HISTORY_SIZE → (s.HISTORY.getD i []).length = LINE_BUF_LEN) ∧
    s.LINE_BUF.length = LINE_BUF_LEN ∧ s.HISTORY_COUNT ≤ HISTORY_SIZE ∧
    s.HISTORY_INDEX < HISTORY_SIZE

/-- Every live ring slot stores the line l. -/
def HistAll (l : Str) (s : ShellState) : Prop :=
  ∀ i, i < s.HISTORY_COUNT →
    (s.HISTORY.getD i []).take l.length = l ∧ s.HISTORY_LENS.getD i 0 = l.length

/-- The browse index, when set, points at a live slot. -/
def BrowseOK (s : ShellState) : Prop :=
  ∀ j, s.HISTORY_BROWSE_INDEX = some j → j < s.HISTORY_COUNT

theorem submitRep_props (l : Str) (hl : l ≠ []) (hlen : l.length ≤ LINE_BUF_LEN) :
    ∀ N, HistWF (submitRep l N) ∧
      (submitRep l N).HISTORY_INDEX = N % HISTORY_SIZE ∧
      (submitRep l N).HISTORY_COUNT = min N HISTORY_SIZE ∧
      (submitRep l N).HISTORY_BROWSE_INDEX = none ∧
      HistAll l (submitRep l N) := by
  have hemp : l.isEmpty = false := by
    cases l with
    | nil => exact absurd rfl hl
    | cons a t => rfl
  have hmin : min l.length LINE_BUF_LEN = l.length := Nat.min_eq_left hlen
  intro N
  induction N with
  | zero =>
    refine ⟨⟨by simp [submitRep, shellInit], by simp [submitRep, shellInit], ?_,
      by simp [submitRep, shellInit],
      by simp [submitRep, shellInit], by simp [submitRep, shellInit, HISTORY_SIZE]⟩,
      rfl, rfl, rfl, ?_⟩
    · intro i hi
      simp only [submitRep, shellInit, HISTORY_SIZE] at hi ⊢
      rw [getD_replicate_lt _ _ _ _ hi]
      simp [LINE_BUF_LEN]
    · intro i hi
      simp [submitRep, shellInit] at hi
  | succ N ih =>
    obtain ⟨⟨hH1, hH2, hH3, hH4, hH5, hH6⟩, hHI, hC, hB, hall⟩ := ih
    have hH : (submitRep l (N+1)).HISTORY =
        (submitRep l N).HISTORY.set (submitRep l N).HISTORY_INDEX
          (l ++ ((submitRep l N).HISTORY.getD (submitRep l N).HISTORY_INDEX
            []).drop l.length) := by
      simp [submitRep, add_to_history, hemp, hmin]
    have hL : (submitRep l (N+1)).HISTORY_LENS =
        (submitRep l N).HISTORY_LENS.set (submitRep l N).HISTORY_INDEX l.length := by
      simp [submitRep, add_to_history, hemp, hmin]
    have hI : (submitRep l (N+1)).HISTORY_INDEX =
        ((submitRep l N).HISTORY_INDEX + 1) % HISTORY_SIZE := by
      simp [submitRep, add_to_history, hemp]
    have hCnt : (submitRep l (N+1)).HISTORY_COUNT =
        if (submitRep l N).HISTORY_COUNT < HISTORY_SIZE then
          (submitRep l N).HISTORY_COUNT + 1 else (submitRep l N).HISTORY_COUNT := by
      simp [submitRep, add_to_history, hemp]
    have hBr : (submitRep l (N+1)).HISTORY_BROWSE_INDEX =
        (submitRep l N).HISTORY_BROWSE_INDEX := by
      simp [submitRep, add_to_history, hemp]
    have hLB : (submitRep l (N+1)).LINE_BUF = (submitRep l N).LINE_BUF := by
      simp [submitRep, add_to_history, hemp]
    have hentry : (l ++ ((submitRep l N).HISTORY.getD (submitRep l N).HISTORY_INDEX
        []).drop l.length).length = LINE_BUF_LEN := by
      have := hH3 (submitRep l N).HISTORY_INDEX hH6
      simp only [List.length_append, List.length_drop, this]
      omega
    refine ⟨⟨?_, ?_, ?_, ?_, ?_, ?_⟩, ?_, ?_, ?_, ?_⟩
    · rw [hH]; simpa using hH1
    · rw [hL]; simpa using hH2
    · intro i hi
      rw [hH]
      by_cases he : (submitRep l N).HISTORY_INDEX = i
      · rw [← he, getD_set_eq _ _ _ _ (by omega)]
        exact hentry
      · rw [getD_set_ne _ _ _ _ _ he]
        exact hH3 i hi
    · rw [hLB]; exact hH4
    · rw [hCnt]
      split <;> simp only [HISTORY_SIZE] at * <;> omega
    · rw [hI]
      simp only [HISTORY_SIZE]
      omega
    · rw [hI, hHI]
      simp only [HISTORY_SIZE]
      omega
    · rw [hCnt, hC]
      simp only [HISTORY_SIZE] at *
      split <;> omega
    · rw [hBr]; exact hB
    · intro i hi
      rw [hCnt, hC] at hi
      rw [hH, hL]
      by_cases he : (submitRep l N).HISTORY_INDEX = i
      · constructor
        · rw [← he, getD_set_eq _ _ _ _ (by omega)]
          exact List.take_left l _
        · rw [← he, getD_set_eq _ _ _ _ (by omega)]
      · have hio : i < min N HISTORY_SIZE := by
          rw [hHI] at he
          simp only [HISTORY_SIZE] at hi he ⊢
          split at hi <;> omega
        refine ⟨?_, ?_⟩
        · rw [getD_set_ne _ _ _ _ _ he]
          exact (hall i (by rw [hC]; exact hio)).1
        · rw [getD_set_ne _ _ _ _ _ he]
          exact (hall i (by rw [hC]; exact hio)).2

theorem load_keeps_hist (s : ShellState) (idx : Nat) :
    (load_history_line s idx).1.HISTORY = s.HISTORY := by
  simp [load_history_line, clear_current_line]

theorem load_keeps_lens (s : ShellState) (idx : Nat) :
    (load_history_line s idx).1.HISTORY_LENS = s.HISTORY_LENS := by
  simp [load_history_line, clear_current_line]

theorem load_line_of (s : ShellState) (idx : Nat) (l : Str)
    (hentry : (s.HISTORY.getD idx []).take l.length = l)
    (hlens : s.HISTORY_LENS.getD idx 0 = l.length)
    (hbuf : s.LINE_BUF.length = LINE_BUF_LEN)
    (hlen : l.length ≤ LINE_BUF_LEN) :
    lineOf (load_history_line s idx).1 = l ∧
      (load_history_line s idx).1.LINE_BUF.length = LINE_BUF_LEN ∧
      (load_history_line s idx).1.LINE_LEN = l.length := by
  have h1 : (load_history_line s idx).1.LINE_BUF =
      (s.HISTORY.getD idx []).take (s.HISTORY_LENS.getD idx 0) ++
        s.LINE_BUF.drop (s.HISTORY_LENS.getD idx 0) := by
    simp [load_history_line, clear_current_line]
  have h2 : (load_history_line s idx).1.LINE_LEN = s.HISTORY_LENS.getD idx 0 := by
    simp [load_history_line, clear_current_line]
  rw [lineOf, h1, h2, hlens, hentry]
  refine ⟨List.take_left l _, ?_, rfl⟩
  have hll : l.length ≤ s.LINE_BUF.length := by omega
  simp only [List.length_append, List.length_drop, hbuf]
  have hl2 : l.length = List.length l := rfl
  omega

/-- Effect of one arrow-up press that loads ring slot bi. -/
theorem load_step_props (s : ShellState) (bi : Nat) (l : Str)
    (hwf : HistWF s) (hall : HistAll l s) (hbi : bi < s.HISTORY_COUNT)
    (hlen : l.length ≤ LINE_BUF_LEN) :
    HistWF (load_history_line { s with HISTORY_BROWSE_INDEX := some bi } bi).1 ∧
      (load_history_line { s with HISTORY_BROWSE_INDEX := some bi } bi).1.HISTORY_COUNT
        = s.HISTORY_COUNT ∧
      (load_history_line { s with HISTORY_BROWSE_INDEX := some bi } bi).1.HISTORY
        = s.HISTORY ∧
      (load_history_line { s with HISTORY_BROWSE_INDEX := some bi } bi).1.HISTORY_LENS
        = s.HISTORY_LENS ∧
      (load_history_line { s with HISTORY_BROWSE_INDEX := some bi } bi).1.HISTORY_INDEX
        = s.HISTORY_INDEX ∧
      BrowseOK (load_history_line { s with HISTORY_BROWSE_INDEX := some bi } bi).1 ∧
      lineOf (load_history_line { s with HISTORY_BROWSE_INDEX := some bi } bi).1 = l := by
  obtain ⟨hW1, hW2, hW3, hW4, hW5, hW6⟩ := hwf
  obtain ⟨hA1, hA2⟩ := hall bi hbi
  have hbi10 : bi < HISTORY_SIZE := by omega
  obtain ⟨hL1, hL2, hL3⟩ := load_line_of
    { s with HISTORY_BROWSE_INDEX := some bi } bi l hA1 hA2 hW4 hlen
  have hkh := load_keeps_hist { s with HISTORY_BROWSE_INDEX := some bi } bi
  have hkl := load_keeps_lens { s with HISTORY_BROWSE_INDEX := some bi } bi
  have hkc := load_keeps_count { s with HISTORY_BROWSE_INDEX := some bi } bi
  have hki := load_keeps_index { s with HISTORY_BROWSE_INDEX := some bi } bi
  have hkb := load_keeps_browse { s with HISTORY_BROWSE_INDEX := some bi } bi
  simp only at hkh hkl hkc hki hkb
  refine ⟨⟨?_, ?_, ?_, hL2, ?_, ?_⟩, hkc, hkh, hkl, hki, ?_, hL1⟩
  · rw [hkh]; exact hW1
  · rw [hkl]; exact hW2
  · intro i hi
    rw [hkh]
    exact hW3 i hi
  · rw [hkc]; exact hW5
  · rw [hki]; exact hW6
  · intro j hj
    rw [hkb] at hj
    rw [hkc]
    cases hj
    exact hbi

/-- Effect of one arrow-up press from an arbitrary browse position. -/
theorem up_step (l : Str) (s : ShellState)
    (hwf : HistWF s) (hc : 0 < s.HISTORY_COUNT) (hall : HistAll l s)
    (hbok : BrowseOK s) (hlen : l.length ≤ LINE_BUF_LEN) :
    HistWF (history_prev s).1 ∧
      (history_prev s).1.HISTORY_COUNT = s.HISTORY_COUNT ∧
      (history_prev s).1.HISTORY = s.HISTORY ∧
      (history_prev s).1.HISTORY_LENS = s.HISTORY_LENS ∧
      BrowseOK (history_prev s).1 ∧
      (s.HISTORY_BROWSE_INDEX = none → lineOf (history_prev s).1 = l) ∧
      (lineOf s = l → lineOf (history_prev s).1 = l) := by
  have hc0 : ¬ s.HISTORY_COUNT = 0 := by omega
  cases hbr : s.HISTORY_BROWSE_INDEX with
  | none =>
    rw [prev_from_none s hc0 hbr]
    have hbi : prevStart s < s.HISTORY_COUNT := by
      obtain ⟨-, -, -, -, hW5, hW6⟩ := hwf
      simp only [prevStart, HISTORY_SIZE] at *
      split <;> omega
    obtain ⟨p1, p2, p3, p4, p5, p6, p7⟩ := load_step_props s (prevStart s) l
      hwf hall hbi hlen
    exact ⟨p1, p2, p3, p4, p6, fun _ => p7, fun _ => p7⟩
  | some idx =>
    have hidxlt : idx < s.HISTORY_COUNT := hbok idx hbr
    by_cases hlt : s.HISTORY_COUNT < HISTORY_SIZE
    · by_cases hpos : idx > 0
      · have heq : history_prev s = load_history_line { s with HISTORY_BROWSE_INDEX := some (idx - 1) } (idx - 1) := by
          simp only [history_prev, hbr, hc0, if_false, if_pos hlt, if_pos hpos]
        rw [heq]
        obtain ⟨p1, p2, p3, p4, p5, p6, p7⟩ := load_step_props s (idx - 1) l
          hwf hall (by omega) hlen
        exact ⟨p1, p2, p3, p4, p6, fun h => Option.noConfusion h, fun _ => p7⟩
      · have heq : history_prev s = (s, []) := by
          simp only [history_prev, hbr, hc0, if_false, if_pos hlt, if_neg hpos]
        rw [heq]
        exact ⟨hwf, rfl, rfl, rfl, hbok, fun h => Option.noConfusion h,
          fun h => h⟩
    · have heq : history_prev s = load_history_line { s with HISTORY_BROWSE_INDEX := some ((idx + HISTORY_SIZE - 1) % HISTORY_SIZE) } ((idx + HISTORY_SIZE - 1) % HISTORY_SIZE) := by
        simp only [history_prev, hbr, hc0, if_false, if_neg hlt]
      rw [heq]
      have hbi2 : (idx + HISTORY_SIZE - 1) % HISTORY_SIZE < s.HISTORY_COUNT := by
        obtain ⟨-, -, -, -, hW5, -⟩ := hwf
        simp only [HISTORY_SIZE] at *
        omega
      obtain ⟨p1, p2, p3, p4, p5, p6, p7⟩ := load_step_props s
        ((idx + HISTORY_SIZE - 1) % HISTORY_SIZE) l hwf hall hbi2 hlen
      exact ⟨p1, p2, p3, p4, p6, fun h => Option.noConfusion h, fun _ => p7⟩

/-- Repeated arrow-up keeps loading the stored line. -/
theorem up_chain (l : Str) (S : ShellState)
    (hwf : HistWF S) (hc : 0 < S.HISTORY_COUNT) (hall : HistAll l S)
    (hbr : S.HISTORY_BROWSE_INDEX = none) (hlen : l.length ≤ LINE_BUF_LEN) :
    ∀ k, 1 ≤ k → lineOf (upIter S k) = l := by
  have main : ∀ k, HistWF (upIter S k) ∧ 0 < (upIter S k).HISTORY_COUNT ∧
      HistAll l (upIter S k) ∧ BrowseOK (upIter S k) ∧
      (1 ≤ k → lineOf (upIter S k) = l) := by
    intro k
    induction k with
    | zero =>
      refine ⟨hwf, hc, hall, ?_, by omega⟩
      intro j hj
      rw [upIter, hbr] at hj
      cases hj
    | succ k ih =>
      obtain ⟨q1, q2, q3, q4, q5⟩ := ih
      obtain ⟨r1, r2, r3, r4, r5, r6, r7⟩ := up_step l (upIter S k) q1 q2 q3 q4 hlen
      have hall2 : HistAll l (upIter S (k+1)) := by
        intro i hi
        rw [upIter] at hi ⊢
        rw [r3, r4]
        exact q3 i (by rw [← r2]; exact hi)
      refine ⟨r1, by rw [upIter, r2]; exact q2, hall2, r5, ?_⟩
      intro _
      rw [upIter]
      cases k with
      | zero => exact r6 hbr
      | succ k => exact r7 (q5 (by omega))
  intro k hk
  exact (main k).2.2.2.2 hk

/-- C4.  Submitting the same nonempty line N times: the history count is
min N 10; every live ring slot stores that line (so for N > 10 only the
most recent 10 submissions remain, the oldest overwritten); and each of
the first min N 10 arrow-up presses puts that line in the line buffer
(the reverse-chronological recall order, all entries being equal). -/
theorem history_ring_recall (l : Str) (N : Nat) (hl : l ≠ [])
    (hlen : l.length ≤ LINE_BUF_LEN) :
    (submitRep l N).HISTORY_COUNT = min N HISTORY_SIZE ∧
      (∀ i, i < min N HISTORY_SIZE → histLine (submitRep l N) i = l) ∧
      (∀ k, 1 ≤ k → k ≤ min N HISTORY_SIZE →
        lineOf (upIter (submitRep l N) k) = l) := by
  obtain ⟨hwf, hHI, hC, hB, hall⟩ := submitRep_props l hl hlen N
  refine ⟨hC, ?_, ?_⟩
  · intro i hi
    obtain ⟨h1, h2⟩ := hall i (by rw [hC]; exact hi)
    rw [histLine, h2, h1]
  · intro k hk1 hk2
    have hc : 0 < (submitRep l N).HISTORY_COUNT := by
      rw [hC]
      omega
    exact up_chain l (submitRep l N) hwf hc hall hB hlen k hk1

/-- Witness for C4 at the line `ok` submitted 3 times. -/
theorem history_ring_recall_witness :
    (strBytes "ok" ≠ [] ∧ (strBytes "ok").length ≤ LINE_BUF_LEN) ∧
      (submitRep (strBytes "ok") 3).HISTORY_COUNT = min 3 HISTORY_SIZE ∧
      histLine (submitRep (strBytes "ok") 3) 1 = strBytes "ok" ∧
      lineOf (upIter (submitRep (strBytes "ok") 3) 2) = strBytes "ok" :=
  ⟨⟨by decide, by decide⟩,
    (history_ring_recall (strBytes "ok") 3 (by decide) (by decide)).1,
    (history_ring_recall (strBytes "ok") 3 (by decide) (by decide)).2.1 1 (by decide),
    (history_ring_recall (strBytes "ok") 3 (by decide) (by decide)).2.2 2 (by decide)
      (by decide)⟩

/-! ## VGA text writer (src/vga_buffer.rs)

The structure is namespaced because Mathlib already declares a `Writer`.
-/

def BUFFER_HEIGHT : Nat := 25
def BUFFER_WIDTH : Nat := 80

structure ScreenChar where
  ascii_character : Nat
  color_code : Nat
deriving DecidableEq

namespace vga

structure Writer where
  column_position : Nat
  row_position : Nat
  color_code : Nat
  buffer : List (List ScreenChar)
deriving DecidableEq

end vga

/-- Default cell used only for out-of-range reads of the model. -/
def defaultCell : ScreenChar := { ascii_character := 0, color_code := 0 }

def getCell (b : List (List ScreenChar)) (r c : Nat) : ScreenChar :=
  (b.getD r []).getD c defaultCell

def setCell (b : List (List ScreenChar)) (r c : Nat) (v : ScreenChar) :
    List (List ScreenChar) :=
  b.set r ((b.getD r []).set c v)

/-- The clear-row loop: write a blank cell into every column of a row. -/
def clearRowFold (color : Nat) (row : Nat) (b : List (List ScreenChar)) :
    List (List ScreenChar) :=
  (List.range BUFFER_WIDTH).foldl
    (fun b2 col => setCell b2 row col { ascii_character := 32, color_code := color }) b

/-- The scroll loop: for each row from 1 up, copy every column one row up. -/
def shiftUpFold (b : List (List ScreenChar)) : List (List ScreenChar) :=
  (List.range' 1 (BUFFER_HEIGHT - 1)).foldl
    (fun acc row => (List.range BUFFER_WIDTH).foldl
      (fun b2 col => setCell b2 (row - 1) col (getCell b2 row col)) acc) b

def vga.Writer.clear_row (w : vga.Writer) (row : Nat) : vga.Writer :=
  { w with buffer := clearRowFold w.color_code row w.buffer }

def vga.Writer.new_line (w : vga.Writer) : vga.Writer :=
  if w.row_position < BUFFER_HEIGHT - 1 then
    { w with row_position := w.row_position + 1, column_position := 0 }
  else
    let w1 := { w with buffer := shiftUpFold w.buffer }
    let w2 := w1.clear_row (BUFFER_HEIGHT - 1)
    { w2 with column_position := 0 }

def vga.Writer.write_byte (w : vga.Writer) (byte : Nat) : vga.Writer :=
  if byte = 10 then w.new_line
  else if byte = 13 then w
  else
    let w1 := if w.column_position ≥ BUFFER_WIDTH then w.new_line else w
    let cellv : ScreenChar := { ascii_character := byte, color_code := w1.color_code }
    let nb := setCell w1.buffer w1.row_position w1.column_position cellv
    let w2 := { w1 with buffer := nb }
    { w2 with column_position := w2.column_position + 1 }

theorem getD_drop {α : Type} :
    ∀ (n : Nat) (l : List α) (i : Nat) (d : α),
      (l.drop n).getD i d = l.getD (n + i) d
  | 0, l, i, d => by simp
  | n+1, [], i, d => by simp
  | n+1, a :: t, i, d => by
    have h1 : n + 1 + i = (n + i) + 1 := by omega
    rw [List.drop_succ_cons, h1, List.getD_cons_succ]
    exact getD_drop n t i d

theorem getD_eq_getElem_vga {α : Type} (l : List α) (i : Nat) (d : α)
    (h : i < l.length) : l.getD i d = l[i] := by
  induction l generalizing i with
  | nil => simp at h
  | cons a t ih =>
    cases i with
    | zero => rfl
    | succ i =>
      simp only [List.getD_cons_succ, List.getElem_cons_succ]
      exact ih i (by simpa using h)

theorem copy_cols_aux (b : List (List ScreenChar)) (dst src : Nat)
    (hne : dst ≠ src) (hdst : dst < b.length) :
    ∀ k, k ≤ (b.getD src []).length → k ≤ (b.getD dst []).length →
      (List.range k).foldl
        (fun b2 col => setCell b2 dst col (getCell b2 src col)) b =
      b.set dst ((b.getD src []).take k ++ (b.getD dst []).drop k) := by
  intro k
  induction k with
  | zero =>
    intro _ _
    simp only [List.range_zero, List.foldl_nil, List.take_zero, List.drop_zero,
      List.nil_append]
    rw [getD_set_self _ _ _ hdst]
  | succ k ih =>
    intro hk1 hk2
    rw [List.range_succ, List.foldl_append, List.foldl_cons, List.foldl_nil,
      ih (by omega) (by omega)]
    have hs1 : (b.set dst ((b.getD src []).take k ++ (b.getD dst []).drop k)).getD
        src [] = b.getD src [] := getD_set_ne _ _ _ _ _ hne
    have hs2 : (b.set dst ((b.getD src []).take k ++ (b.getD dst []).drop k)).getD
        dst [] = (b.getD src []).take k ++ (b.getD dst []).drop k :=
      getD_set_eq _ _ _ _ (by simpa using hdst)
    simp only [setCell, getCell, hs1, hs2, List.set_set]
    congr 1
    have hkl : ((b.getD src []).take k).length = k := by
      simp only [List.length_take]
      omega
    have hsa := set_append_len ((b.getD src []).take k) ((b.getD dst []).drop k)
      ((b.getD src []).getD k defaultCell)
    rw [hkl] at hsa
    rw [hsa]
    have hd : (b.getD dst []).drop k =
        (b.getD dst []).getD k defaultCell :: (b.getD dst []).drop (k+1) := by
      rw [getD_eq_getElem_vga (b.getD dst []) k defaultCell (by omega)]
      exact List.drop_eq_getElem_cons (by omega)
    have hts : (b.getD src []).take (k+1) =
        (b.getD src []).take k ++ [(b.getD src []).getD k defaultCell] := by
      rw [getD_eq_getElem_vga (b.getD src []) k defaultCell (by omega),
        List.take_succ, List.getElem?_eq_getElem (by omega)]
      rfl
    rw [hd, hts]
    simp

theorem copy_row_fold (b : List (List ScreenChar)) (dst src : Nat)
    (hne : dst ≠ src) (hdst : dst < b.length)
    (hsrc : (b.getD src []).length = BUFFER_WIDTH)
    (hdstlen : (b.getD dst []).length = BUFFER_WIDTH) :
    (List.range BUFFER_WIDTH).foldl
      (fun b2 col => setCell b2 dst col (getCell b2 src col)) b =
    b.set dst (b.getD src []) := by
  rw [copy_cols_aux b dst src hne hdst BUFFER_WIDTH (by omega) (by omega)]
  congr 1
  have h1 : (b.getD src []).take BUFFER_WIDTH = b.getD src [] :=
    List.take_of_length_le (by omega)
  have h2 : (b.getD dst []).drop BUFFER_WIDTH = [] :=
    List.drop_eq_nil_of_le (by omega)
  rw [h1, h2, List.append_nil]

theorem clear_cols_aux (b : List (List ScreenChar)) (row : Nat) (v : ScreenChar)
    (hrow : row < b.length) :
    ∀ k, k ≤ (b.getD row []).length →
      (List.range k).foldl (fun b2 col => setCell b2 row col v) b =
      b.set row (List.replicate k v ++ (b.getD row []).drop k) := by
  intro k
  induction k with
  | zero =>
    intro _
    simp only [List.range_zero, List.foldl_nil, List.replicate_zero,
      List.drop_zero, List.nil_append]
    rw [getD_set_self _ _ _ hrow]
  | succ k ih =>
    intro hk
    rw [List.range_succ, List.foldl_append, List.foldl_cons, List.foldl_nil,
      ih (by omega)]
    have hs2 : (b.set row (List.replicate k v ++ (b.getD row []).drop k)).getD
        row [] = List.replicate k v ++ (b.getD row []).drop k :=
      getD_set_eq _ _ _ _ (by simpa using hrow)
    simp only [setCell, hs2, List.set_set]
    congr 1
    have hkl : (List.replicate k v).length = k := by simp
    have hsa := set_append_len (List.replicate k v) ((b.getD row []).drop k) v
    rw [hkl] at hsa
    rw [hsa]
    have hd : (b.getD row []).drop k =
        (b.getD row []).getD k defaultCell :: (b.getD row []).drop (k+1) := by
      rw [getD_eq_getElem_vga (b.getD row []) k defaultCell (by omega)]
      exact List.drop_eq_getElem_cons (by omega)
    have hrep : List.replicate (k+1) v = List.replicate k v ++ [v] :=
      List.replicate_succ' ..
    rw [hd, hrep]
    simp

theorem clear_row_fold (b : List (List ScreenChar)) (row : Nat) (v : ScreenChar)
    (hrow : row < b.length)
    (hrowlen : (b.getD row []).length = BUFFER_WIDTH) :
    (List.range BUFFER_WIDTH).foldl (fun b2 col => setCell b2 row col v) b =
    b.set row (List.replicate BUFFER_WIDTH v) := by
  rw [clear_cols_aux b row v hrow BUFFER_WIDTH (by omega)]
  congr 1
  have h2 : (b.getD row []).drop BUFFER_WIDTH = [] :=
    List.drop_eq_nil_of_le (by omega)
  rw [h2, List.append_nil]

theorem shift_rows_aux (b : List (List ScreenChar))
    (hlen : b.length = BUFFER_HEIGHT)
    (hrows : ∀ r, r < BUFFER_HEIGHT → (b.getD r []).length = BUFFER_WIDTH) :
    ∀ r, r ≤ BUFFER_HEIGHT - 1 →
      (List.range' 1 r).foldl
        (fun acc row => (List.range BUFFER_WIDTH).foldl
          (fun b2 col => setCell b2 (row - 1) col (getCell b2 row col)) acc) b =
      (b.drop 1).take r ++ b.drop r := by
  intro r
  induction r with
  | zero =>
    intro _
    simp
  | succ r ih =>
    intro hr
    have hrc : List.range' 1 (r+1) = List.range' 1 r ++ [1 + r] := by
      simpa using @List.range'_concat 1 1 r
    rw [hrc]
    simp only [List.foldl_append, List.foldl_cons, List.foldl_nil]
    rw [ih (by omega)]
    have h1r : 1 + r - 1 = r := by omega
    rw [h1r]
    have hB : BUFFER_HEIGHT = 25 := rfl
    have hXlen : ((b.drop 1).take r).length = r := by
      simp only [List.length_take, List.length_drop, hlen, hB]
      omega
    have hAlen : ((b.drop 1).take r ++ b.drop r).length = BUFFER_HEIGHT := by
      simp only [List.length_append, hXlen, List.length_drop, hlen]
      simp only [hB] at *
      omega
    have hAsrc : ((b.drop 1).take r ++ b.drop r).getD (1 + r) [] =
        b.getD (r + 1) [] := by
      have h3 := getD_append_len_add ((b.drop 1).take r) (b.drop r) 1
        ([] : List ScreenChar)
      rw [hXlen] at h3
      have h4 := getD_drop r b 1 ([] : List ScreenChar)
      rw [h4] at h3
      have h5 : 1 + r = r + 1 := by omega
      rw [h5]
      exact h3
    have hAdst : ((b.drop 1).take r ++ b.drop r).getD r [] = b.getD r [] := by
      have h3 := getD_append_len_add ((b.drop 1).take r) (b.drop r) 0
        ([] : List ScreenChar)
      rw [hXlen] at h3
      have h4 := getD_drop r b 0 ([] : List ScreenChar)
      rw [h4] at h3
      simpa using h3
    rw [copy_row_fold _ r (1 + r) (by omega) (by omega) ?hs ?hd]
    case hs =>
      rw [hAsrc]
      exact hrows (r + 1) (by omega)
    case hd =>
      rw [hAdst]
      exact hrows r (by omega)
    rw [hAsrc]
    have hsa := set_append_len ((b.drop 1).take r) (b.drop r) (b.getD (r + 1) [])
    rw [hXlen] at hsa
    rw [hsa]
    have hdc : b.drop r = b.getD r [] :: b.drop (r + 1) := by
      rw [getD_eq_getElem_vga b r [] (by omega)]
      exact List.drop_eq_getElem_cons (by omega)
    rw [hdc, List.set_cons_zero]
    have hlt1 : r < (b.drop 1).length := by
      simp only [List.length_drop, hlen, hB]
      omega
    have hts : (b.drop 1).take (r + 1) =
        (b.drop 1).take r ++ [(b.drop 1).getD r []] := by
      rw [getD_eq_getElem_vga (b.drop 1) r [] hlt1, List.take_succ,
        List.getElem?_eq_getElem hlt1]
      rfl
    have hge : (b.drop 1).getD r [] = b.getD (1 + r) [] := getD_drop 1 b r []
    rw [hts, hge, List.append_assoc, List.singleton_append]
    have h6 : 1 + r = r + 1 := by omega
    rw [h6]

theorem clearRowFold_eq (b : List (List ScreenChar)) (color row : Nat)
    (hrow : row < b.length)
    (hrowlen : (b.getD row []).length = BUFFER_WIDTH) :
    clearRowFold color row b =
      b.set row (List.replicate BUFFER_WIDTH
        { ascii_character := 32, color_code := color }) := by
  unfold clearRowFold
  exact clear_row_fold b row _ hrow hrowlen

theorem shiftUpFold_eq (b : List (List ScreenChar))
    (hlen : b.length = BUFFER_HEIGHT)
    (hrows : ∀ r, r < BUFFER_HEIGHT → (b.getD r []).length = BUFFER_WIDTH) :
    shiftUpFold b =
      (b.drop 1).take (BUFFER_HEIGHT - 1) ++ b.drop (BUFFER_HEIGHT - 1) := by
  unfold shiftUpFold
  exact shift_rows_aux b hlen hrows (BUFFER_HEIGHT - 1) (le_refl _)

theorem clear_row_row (w : vga.Writer) (row : Nat) :
    (w.clear_row row).row_position = w.row_position := by
  rw [vga.Writer.clear_row]

theorem clear_row_buf (w : vga.Writer) (row : Nat) :
    (w.clear_row row).buffer = clearRowFold w.color_code row w.buffer := by
  rw [vga.Writer.clear_row]

/-- Scrolling: a newline on the last row shifts every row up and blanks
the last row with the current color. -/
theorem newline_scroll_buffer (w : vga.Writer)
    (hlen : w.buffer.length = BUFFER_HEIGHT)
    (hrows : ∀ r, r < BUFFER_HEIGHT → (w.buffer.getD r []).length = BUFFER_WIDTH)
    (hrow : w.row_position = BUFFER_HEIGHT - 1) :
    w.new_line.buffer = w.buffer.drop 1 ++
      [List.replicate BUFFER_WIDTH
        { ascii_character := 32, color_code := w.color_code }] ∧
      w.new_line.row_position = BUFFER_HEIGHT - 1 ∧
      w.new_line.column_position = 0 := by
  have hcond : ¬ w.row_position < BUFFER_HEIGHT - 1 := by omega
  have hcp : w.new_line.column_position = 0 := by
    rw [vga.Writer.new_line, if_neg hcond]
  have hrp : w.new_line.row_position = w.row_position := by
    rw [vga.Writer.new_line, if_neg hcond]
    simp only [clear_row_row]
  have hbuf : w.new_line.buffer =
      clearRowFold w.color_code (BUFFER_HEIGHT - 1) (shiftUpFold w.buffer) := by
    rw [vga.Writer.new_line, if_neg hcond]
    simp only [clear_row_buf]
  refine ⟨?_, by rw [hrp, hrow], hcp⟩
  rw [hbuf, shiftUpFold_eq w.buffer hlen hrows]
  have hB : BUFFER_HEIGHT = 25 := rfl
  have hXlen : ((w.buffer.drop 1).take (BUFFER_HEIGHT - 1)).length =
      BUFFER_HEIGHT - 1 := by
    simp only [List.length_take, List.length_drop, hlen, hB]
    omega
  have hS24 : ((w.buffer.drop 1).take (BUFFER_HEIGHT - 1) ++
      w.buffer.drop (BUFFER_HEIGHT - 1)).getD (BUFFER_HEIGHT - 1) [] =
      w.buffer.getD (BUFFER_HEIGHT - 1) [] := by
    have h3 := getD_append_len_add ((w.buffer.drop 1).take (BUFFER_HEIGHT - 1))
      (w.buffer.drop (BUFFER_HEIGHT - 1)) 0 ([] : List ScreenChar)
    rw [hXlen] at h3
    have h4 := getD_drop (BUFFER_HEIGHT - 1) w.buffer 0 ([] : List ScreenChar)
    rw [h4] at h3
    simpa using h3
  rw [clearRowFold_eq _ _ _ ?hr ?hl]
  case hr =>
    rw [List.length_append, hXlen]
    simp only [List.length_drop, hlen, hB]
    omega
  case hl =>
    rw [hS24]
    exact hrows (BUFFER_HEIGHT - 1) (by omega)
  have hsa := set_append_len ((w.buffer.drop 1).take (BUFFER_HEIGHT - 1))
    (w.buffer.drop (BUFFER_HEIGHT - 1))
    (List.replicate BUFFER_WIDTH { ascii_character := 32, color_code := w.color_code })
  rw [hXlen] at hsa
  rw [hsa]
  have hlt25 : BUFFER_HEIGHT - 1 < w.buffer.length := by
    rw [hlen, hB]
    omega
  have hdc : w.buffer.drop (BUFFER_HEIGHT - 1) =
      w.buffer.getD (BUFFER_HEIGHT - 1) [] ::
        w.buffer.drop ((BUFFER_HEIGHT - 1) + 1) := by
    rw [getD_eq_getElem_vga w.buffer (BUFFER_HEIGHT - 1) [] hlt25]
    exact List.drop_eq_getElem_cons hlt25
  have hnil : w.buffer.drop ((BUFFER_HEIGHT - 1) + 1) = [] := by
    apply List.drop_eq_nil_of_le
    rw [hlen, hB]
  rw [hdc, hnil, List.set_cons_zero]
  have htk : (w.buffer.drop 1).take (BUFFER_HEIGHT - 1) = w.buffer.drop 1 :=
    List.take_of_length_le (by simp [hlen, hB])
  rw [htk]

/-- C6.  Writing a newline when the cursor row is not the last row advances
the row by one and resets the column, leaving the buffer unchanged; on the
last row it shifts every row up by one, fills the last row with blank
cells of the current color, keeps the row pinned at the last row and
resets the column; the row count stays BUFFER_HEIGHT, the former top row
is gone and the bottom row is blank. -/
theorem vga_newline_scroll (w : vga.Writer)
    (hlen : w.buffer.length = BUFFER_HEIGHT)
    (hrows : ∀ r, r < BUFFER_HEIGHT → (w.buffer.getD r []).length = BUFFER_WIDTH) :
    (w.row_position < BUFFER_HEIGHT - 1 →
      w.write_byte 10 = { w with row_position := w.row_position + 1
                               , column_position := 0 }) ∧
    (w.row_position = BUFFER_HEIGHT - 1 →
      (w.write_byte 10).row_position = BUFFER_HEIGHT - 1 ∧
      (w.write_byte 10).column_position = 0 ∧
      (w.write_byte 10).buffer = w.buffer.drop 1 ++
        [List.replicate BUFFER_WIDTH
          { ascii_character := 32, color_code := w.color_code }] ∧
      (w.write_byte 10).buffer.length = BUFFER_HEIGHT) := by
  have hwb : w.write_byte 10 = w.new_line := by
    simp [vga.Writer.write_byte]
  rw [hwb]
  constructor
  · intro h
    rw [vga.Writer.new_line, if_pos h]
  · intro h
    obtain ⟨h1, h2, h3⟩ := newline_scroll_buffer w hlen hrows h
    refine ⟨h2, h3, h1, ?_⟩
    rw [h1]
    simp only [List.length_append, List.length_drop, hlen, List.length_cons,
      List.length_nil]
    rfl

/-- A concrete 25×80 buffer for the C6 witness. -/
def vgaTestBuf : List (List ScreenChar) :=
  List.replicate BUFFER_HEIGHT (List.replicate BUFFER_WIDTH defaultCell)

/-- Witness for C6: a writer on the last row scrolls; one on row 3 advances. -/
theorem vga_newline_scroll_witness :
    vgaTestBuf.length = BUFFER_HEIGHT ∧
    ((vga.Writer.mk 3 (BUFFER_HEIGHT - 1) 7 vgaTestBuf).write_byte 10).row_position =
      BUFFER_HEIGHT - 1 ∧
    ((vga.Writer.mk 3 (BUFFER_HEIGHT - 1) 7 vgaTestBuf).write_byte 10).column_position = 0 ∧
    ((vga.Writer.mk 3 (BUFFER_HEIGHT - 1) 7 vgaTestBuf).write_byte 10).buffer =
      vgaTestBuf.drop 1 ++
        [List.replicate BUFFER_WIDTH { ascii_character := 32, color_code := 7 }] ∧
    (vga.Writer.mk 0 3 7 vgaTestBuf).write_byte 10 =
      vga.Writer.mk 0 (3 + 1) 7 vgaTestBuf := by
  have hlen : vgaTestBuf.length = BUFFER_HEIGHT := by simp [vgaTestBuf]
  have hrows : ∀ r, r < BUFFER_HEIGHT →
      (vgaTestBuf.getD r []).length = BUFFER_WIDTH := by
    intro r hr
    unfold vgaTestBuf
    rw [getD_replicate_lt _ _ _ _ hr]
    simp
  have h1 := vga_newline_scroll (vga.Writer.mk 3 (BUFFER_HEIGHT - 1) 7 vgaTestBuf)
    hlen hrows
  have h2 := vga_newline_scroll (vga.Writer.mk 0 3 7 vgaTestBuf) hlen hrows
  obtain ⟨a, b, c, d⟩ := h1.2 rfl
  exact ⟨hlen, a, b, c, h2.1 (by decide)⟩
